import Mathlib

set_option maxRecDepth 4000

/-
  Verification development for two GIMP components:
  * the action-search dialog (matching, ranking, result-list insertion,
    history de-duplication, activation of the selected action), and
  * the ISO-639 language-store XML parsing helpers (attribute resolution,
    the "zh" special case, self-localization environment handling, and the
    unknown-element skipping state machine).

  C strings are modelled as `List Char` (no NUL bytes); labels are taken
  after `gimp_strip_uline` (an external libgimpbase helper that removes
  mnemonic underlines), so the `label` field below is the uline-stripped
  label text.  Machine integers that matter (result sections) fit easily
  in a C `gint` and are modelled as `Int`.
-/

/-- ASCII lower-casing, as C `tolower` behaves on the ASCII range (the label
and keyword bytes are folded byte-wise in `action_search_match_keyword`). -/
def tolower (c : Char) : Char :=
  if 'A' ≤ c ∧ c ≤ 'Z' then Char.ofNat (c.toNat + 32) else c

/-- Lower-casing of a whole C string, as the per-character loops in
`action_search_match_keyword`. -/
def lowerStr (l : List Char) : List Char := l.map tolower

/-- C `strchr (s, k)`: `some rest` means the first occurrence of `k` was
found and `rest` is the text after it (i.e. the C result pointer plus one),
`none` means no occurrence.  `k` is a proper character (not NUL). -/
def strchr : List Char → Char → Option (List Char)
  | [], _ => none
  | c :: cs, k => if c = k then some cs else strchr cs k

/-- `action_fuzzy_match` from the action-search dialog: recursive greedy
subsequence test.  Empty key matches; otherwise find the first occurrence
of the key head and recurse after it. -/
def action_fuzzy_match : List Char → List Char → Bool
  | _, [] => true
  | s, c :: ks =>
    match strchr s c with
    | some rest => action_fuzzy_match rest ks
    | none => false

/-- Boolean test that `p` is an initial segment of `s`. -/
def listStartsWith : List Char → List Char → Bool
  | [], _ => true
  | _ :: _, [] => false
  | p :: ps, c :: cs => decide (p = c) && listStartsWith ps cs

/-- Boolean test that `p` is a final segment of `s`. -/
def listEndsWith (p s : List Char) : Bool :=
  listStartsWith p.reverse s.reverse

/-- C `strstr (hay, needle)` as the index of the first occurrence
(`strstr` returning `hay` itself corresponds to index 0). -/
def strstrPos : List Char → List Char → Option Nat
  | hay, needle =>
    if listStartsWith needle hay then some 0
    else
      match hay with
      | [] => none
      | _ :: t => (strstrPos t needle).map (· + 1)

/-- The character just after the first space of a label, when it exists:
`strchr (label, ' ')` followed by `space_pos++` in
`action_search_match_keyword`.  When the space is the final character the
C code reads the NUL terminator there, which can never equal a keyword
character, hence `none`. -/
def after_first_space : List Char → Option Char
  | [] => none
  | c :: rest => if c = ' ' then rest.head? else after_first_space rest

/-- The two-character-keyword rule of `action_search_match_keyword`:
the first keyword character must equal the label's first character and the
second must equal the character right after the label's first space. -/
def two_char_rule (label : List Char) (k0 k1 : Char) : Bool :=
  match after_first_space label with
  | some c =>
    match label with
    | l0 :: _ => decide (k0 = l0) && decide (k1 = c)
    | [] => false
  | none => false

/-- An action-like record as the search dialog reads it from the action
registry: unique name, uline-stripped display label, optional tooltip,
sensitivity flag.  The activation callback is modelled by
`action_search_run_selected`'s outcome record. -/
structure GtkAction where
  name : List Char
  label : List Char
  tooltip : Option (List Char)
  sensitive : Bool
deriving DecidableEq

/-- `action_search_match_keyword`: returns `some section` when the action
matches the keyword, `none` otherwise.  A `none` keyword matches everything
at section 0.  Rules in source order: two-character initials rule
(section 1), substring of the label (section 1 at position 0, else 2),
substring of the tooltip when the keyword is longer than two characters
(section 3), greedy subsequence of the label (section 4). -/
def action_search_match_keyword (a : GtkAction) (keyword : Option (List Char)) : Option Int :=
  match keyword with
  | none => some 0
  | some kw =>
    let key := lowerStr kw
    let label := lowerStr a.label
    let two : Bool :=
      match key with
      | [k0, k1] => two_char_rule label k0 k1
      | _ => false
    if two then some 1
    else
      match strstrPos label key with
      | some p => some (if p = 0 then 1 else 2)
      | none =>
        let tooltipHit : Bool :=
          decide (2 < key.length) &&
            (match a.tooltip with
             | some tip => (strstrPos (lowerStr tip) key).isSome
             | none => false)
        if tooltipHit then some 3
        else if action_fuzzy_match label key then some 4
        else none

/-- glib `g_ascii_isspace`. -/
def g_ascii_isspace (c : Char) : Bool :=
  decide (c = ' ') || decide (c = '\t') || decide (c = '\n') ||
  decide (c = '\x0b') || decide (c = '\x0c') || decide (c = '\r')

/-- glib `g_strstrip`: remove leading and trailing ASCII whitespace. -/
def g_strstrip (l : List Char) : List Char :=
  ((l.dropWhile g_ascii_isspace).reverse.dropWhile g_ascii_isspace).reverse

/-- The insertion loop of `action_search_add_to_results_list`: walk the
rows and insert the new row right before the first existing row whose
section is strictly greater, else append at the end.  Rows are modelled as
(section, payload) pairs; the loop reads only the section column. -/
def insert_by_section {β : Type} : List (Int × β) → Int × β → List (Int × β)
  | [], r => [r]
  | x :: xs, r => if r.1 < x.1 then r :: x :: xs else x :: insert_by_section xs r

/-- `action_search_add_to_results_list`: actions whose stripped label is
empty are skipped (early return); otherwise the row is inserted in section
order.  The markup/icon/shortcut columns do not influence list order and
are not modelled beyond the action itself. -/
def action_search_add_to_results_list (rows : List (Int × GtkAction)) (a : GtkAction)
    (sec : Int) : List (Int × GtkAction) :=
  if g_strstrip a.label = [] then rows else insert_by_section rows (sec, a)

/-- The structural-name filter of `action_search_history_and_actions`. -/
def action_search_skip_name (name : List Char) : Bool :=
  listEndsWith ("-menu".toList) name || listEndsWith ("-popup".toList) name ||
  listStartsWith ("context-".toList) name || listStartsWith ("plug-in-recent-".toList) name

/-- One catalog action of the inner loop of
`action_search_history_and_actions`: skip structural names, skip disabled
actions unless configured otherwise, run the matcher, skip actions already
present (by name, C `strcmp`) in the history results, else insert. -/
def action_search_catalog_step (keyword : Option (List Char)) (history : List GtkAction)
    (show_unavailable : Bool) (rows : List (Int × GtkAction)) (a : GtkAction) :
    List (Int × GtkAction) :=
  if action_search_skip_name a.name then rows
  else if !a.sensitive && !show_unavailable then rows
  else
    match action_search_match_keyword a keyword with
    | some sec =>
      if history.any (fun h => decide (h.name = a.name)) then rows
      else action_search_add_to_results_list rows a sec
    | none => rows

/-- `action_search_history_and_actions`: empty keyword is an early return
(the list was cleared by the caller, so the result is empty); a `none`
keyword is the show-all trigger and proceeds.  History results (as
returned by the external `gimp_action_history_search` collaborator) are
inserted first at section 0 in their own order, then every action of every
group is examined.  `gtk_action_group_list_actions` plus `g_list_sort`
yield the group's actions in some collaborator-determined order; the
theorems quantify over all group orderings, which covers the sort. -/
def action_search_history_and_actions (keyword : Option (List Char))
    (history : List GtkAction) (groups : List (List GtkAction)) (show_unavailable : Bool) :
    List (Int × GtkAction) :=
  if keyword = some [] then []
  else
    groups.foldl
      (fun rows grp => grp.foldl (action_search_catalog_step keyword history show_unavailable) rows)
      (history.foldl (fun rows a => action_search_add_to_results_list rows a 0) [])

/-- Observable effects of `action_search_run_selected`: whether
`gtk_action_activate` was invoked and whether `action_search_finalizer`
tore the dialog down.  The function performs no other mutation of the
session state. -/
structure RunOutcome where
  activated : Bool
  finalized : Bool
deriving DecidableEq

/-- `action_search_run_selected`: with no selected row nothing happens;
with a selected row the referenced action is activated and the dialog torn
down only when the action is sensitive, else the function returns early. -/
def action_search_run_selected (selected : Option GtkAction) : RunOutcome :=
  match selected with
  | none => { activated := false, finalized := false }
  | some a =>
    if a.sensitive then { activated := true, finalized := true }
    else { activated := false, finalized := false }

/-- Tagged variant of the result-list build used to express insertion
stability: each inserted action carries its position in the insertion
sequence.  The insertion logic is exactly
`action_search_add_to_results_list` (same label guard, same
`insert_by_section`); a projection lemma in the C5 theorem ties the two. -/
def action_search_build_tagged : Nat → List (Int × (GtkAction × Nat)) →
    List (GtkAction × Int) → List (Int × (GtkAction × Nat))
  | _, acc, [] => acc
  | n, acc, (a, sec) :: rest =>
    action_search_build_tagged (n + 1)
      (if g_strstrip a.label = [] then acc else insert_by_section acc (sec, (a, n))) rest

/- ------------------------------------------------------------------ -/
/- ISO-639 language-store parsing (gimplanguagestore-parser.c)        -/
/- ------------------------------------------------------------------ -/

/-- A mutation of the process-wide `LANGUAGE` environment variable, as
performed by `g_setenv`/`g_unsetenv` in `gimp_language_store_self_l10n`. -/
inductive EnvOp
  | setE (value : String)
  | unsetE
deriving DecidableEq

/-- Replay of environment operations on a `LANGUAGE` value. -/
def applyEnvOps (env : Option String) (ops : List EnvOp) : Option String :=
  ops.foldl (fun _ op => match op with | EnvOp.setE v => some v | EnvOp.unsetE => none) env

/-- Result of one `gimp_language_store_self_l10n` call: the environment
operations it performed, in order, and the (name, code) pairs passed to
`gimp_language_store_add`. -/
structure L10nResult where
  ops : List EnvOp
  adds : List (String × String)
deriving DecidableEq

/-- The temporary `LANGUAGE` value built by `gimp_language_store_self_l10n`:
`code:current:setlocale(LC_ALL,NULL)` when `LANGUAGE` was present, else the
bare code. -/
def self_l10n_temp_lang (locale : String) (env : Option String) (code : String) : String :=
  match env with
  | some cur => code ++ ":" ++ cur ++ ":" ++ locale
  | none => code

/-- The restoring operation: re-set the saved value, or unset when
`LANGUAGE` was absent. -/
def self_l10n_restore_op (env : Option String) : EnvOp :=
  match env with
  | some cur => EnvOp.setE cur
  | none => EnvOp.unsetE

/-- `strchr (lang, ';')` and `g_strndup` up to it: the first `;`-delimited
segment of a translated name (the whole name when it has no `;`). -/
def first_name_segment (s : String) : String :=
  (s.toList.takeWhile (fun ch => decide (ch ≠ ';'))).asString

/-- `gimp_language_store_self_l10n`.  `tr env msg` models the
`dgettext ("iso_639", msg)` lookup under the given `LANGUAGE` value
(translation data is an external collaborator); `locale` models
`setlocale (LC_ALL, NULL)`.  NULL or empty name/code add nothing; the
"en" code skips the whole localization block; otherwise `LANGUAGE` is set
to the temporary value, the translation looked up, and the variable
restored (or unset when it was absent). -/
def gimp_language_store_self_l10n (tr : Option String → String → String) (locale : String)
    (env : Option String) (lang code : Option String) : L10nResult :=
  match lang, code with
  | some l, some c =>
    if l ≠ "" ∧ c ≠ "" then
      if c ≠ "en" then
        let temp := self_l10n_temp_lang locale env c
        { ops := [EnvOp.setE temp, self_l10n_restore_op env],
          adds := [(first_name_segment (tr (some temp) l), c)] }
      else
        { ops := [], adds := [(first_name_segment l, c)] }
    else { ops := [], adds := [] }
  | _, _ => { ops := [], adds := [] }

/-- The attribute loop of `iso_codes_parser_entry`, threading the `lang`
and `code` locals through the attribute list: `name` always overwrites
`lang`; `iso_639_2B_code` and `iso_639_2T_code` are taken only while no
code has been chosen yet; `iso_639_1_code` is taken unconditionally. -/
def iso_codes_parser_scan_attrs : Option String → Option String →
    List (String × String) → Option String × Option String
  | lang, code, [] => (lang, code)
  | lang, code, (n, v) :: rest =>
    if n = "name" then
      iso_codes_parser_scan_attrs (some v) code rest
    else if n = "iso_639_2B_code" ∧ code = none then
      iso_codes_parser_scan_attrs lang (some v) rest
    else if n = "iso_639_2T_code" ∧ code = none then
      iso_codes_parser_scan_attrs lang (some v) rest
    else if n = "iso_639_1_code" then
      iso_codes_parser_scan_attrs lang (some v) rest
    else
      iso_codes_parser_scan_attrs lang code rest

/-- `iso_codes_parser_entry`: scan the attributes, then either the "zh"
special case (three self-localized entries for zh_CN, zh_TW, zh_HK and no
generic entry) or one generic self-localized entry.  Returns the (name,
code) pairs added to the store and the final `LANGUAGE` value. -/
def iso_codes_parser_entry_run (tr : Option String → String → String) (locale : String)
    (env : Option String) (attrs : List (String × String)) :
    List (String × String) × Option String :=
  if (iso_codes_parser_scan_attrs none none attrs).2 = some ("zh") then
    let r1 := gimp_language_store_self_l10n tr locale env (some ("Chinese")) (some ("zh_CN"))
    let env1 := applyEnvOps env r1.ops
    let r2 := gimp_language_store_self_l10n tr locale env1 (some ("Chinese")) (some ("zh_TW"))
    let env2 := applyEnvOps env1 r2.ops
    let r3 := gimp_language_store_self_l10n tr locale env2 (some ("Chinese")) (some ("zh_HK"))
    let env3 := applyEnvOps env2 r3.ops
    (r1.adds ++ r2.adds ++ r3.adds, env3)
  else
    let r := gimp_language_store_self_l10n tr locale env
      (iso_codes_parser_scan_attrs none none attrs).1
      (iso_codes_parser_scan_attrs none none attrs).2
    (r.adds, applyEnvOps env r.ops)

/-- The parser state enumeration of gimplanguagestore-parser.c. -/
inductive IsoCodesParserState
  | ISO_CODES_START
  | ISO_CODES_IN_ENTRIES
  | ISO_CODES_IN_ENTRY
  | ISO_CODES_IN_UNKNOWN
deriving DecidableEq

open IsoCodesParserState

/-- The `IsoCodesParser` record, extended with the observable effects the
claims talk about: the entries added to the store, the `LANGUAGE` value,
whether the `g_warning` branch of `iso_codes_parser_end_element` ran, and
whether the `g_assert` in `iso_codes_parser_end_unknown` failed. -/
structure IsoCodesParser where
  state : IsoCodesParserState
  last_known_state : IsoCodesParserState
  unknown_depth : Nat
  adds : List (String × String)
  env : Option String
  warnings : Nat
  assertFailed : Bool
deriving DecidableEq

/-- An XML event as delivered by the GMarkup collaborator. -/
inductive XmlEvent
  | startElement (name : String) (attrs : List (String × String))
  | endElement (name : String)
deriving DecidableEq

/-- `iso_codes_parser_start_unknown`: save the current state when entering
(depth 0), switch to the unknown state and count the nesting. -/
def iso_codes_parser_start_unknown (p : IsoCodesParser) : IsoCodesParser :=
  let p1 := if p.unknown_depth = 0 then { p with last_known_state := p.state } else p
  { p1 with state := ISO_CODES_IN_UNKNOWN, unknown_depth := p1.unknown_depth + 1 }

/-- `iso_codes_parser_end_unknown`: the `g_assert` demands a positive depth
in the unknown state (a failure is recorded, mirroring the abort);
otherwise decrement and restore the saved state when the depth reaches 0. -/
def iso_codes_parser_end_unknown (p : IsoCodesParser) : IsoCodesParser :=
  if 0 < p.unknown_depth ∧ p.state = ISO_CODES_IN_UNKNOWN then
    let d := p.unknown_depth - 1
    if d = 0 then { p with unknown_depth := 0, state := p.last_known_state }
    else { p with unknown_depth := d }
  else { p with assertFailed := true }

/-- `iso_codes_parser_start_element`.  The C switch falls through: in the
START state an `iso_639_entry` tag is also recognized, and any tag not
recognized by the current case reaches `iso_codes_parser_start_unknown`. -/
def iso_codes_parser_start_element (tr : Option String → String → String) (locale : String)
    (p : IsoCodesParser) (name : String) (attrs : List (String × String)) : IsoCodesParser :=
  match p.state with
  | ISO_CODES_START =>
    if name = "iso_639_entries" then { p with state := ISO_CODES_IN_ENTRIES }
    else if name = "iso_639_entry" then
      let r := iso_codes_parser_entry_run tr locale p.env attrs
      { p with state := ISO_CODES_IN_ENTRY, adds := p.adds ++ r.1, env := r.2 }
    else iso_codes_parser_start_unknown p
  | ISO_CODES_IN_ENTRIES =>
    if name = "iso_639_entry" then
      let r := iso_codes_parser_entry_run tr locale p.env attrs
      { p with state := ISO_CODES_IN_ENTRY, adds := p.adds ++ r.1, env := r.2 }
    else iso_codes_parser_start_unknown p
  | ISO_CODES_IN_ENTRY => iso_codes_parser_start_unknown p
  | ISO_CODES_IN_UNKNOWN => iso_codes_parser_start_unknown p

/-- `iso_codes_parser_end_element` (the element name is unused by the C
code): a warning in START, pops one level in the known states, and defers
to `iso_codes_parser_end_unknown` in the unknown state. -/
def iso_codes_parser_end_element (p : IsoCodesParser) : IsoCodesParser :=
  match p.state with
  | ISO_CODES_START => { p with warnings := p.warnings + 1 }
  | ISO_CODES_IN_ENTRIES => { p with state := ISO_CODES_START }
  | ISO_CODES_IN_ENTRY => { p with state := ISO_CODES_IN_ENTRIES }
  | ISO_CODES_IN_UNKNOWN => iso_codes_parser_end_unknown p

/-- One GMarkup event dispatched to the two handlers. -/
def iso_codes_parser_step (tr : Option String → String → String) (locale : String)
    (p : IsoCodesParser) : XmlEvent → IsoCodesParser
  | XmlEvent.startElement name attrs => iso_codes_parser_start_element tr locale p name attrs
  | XmlEvent.endElement _ => iso_codes_parser_end_element p

/-- A whole event sequence. -/
def iso_codes_parser_run (tr : Option String → String → String) (locale : String)
    (p : IsoCodesParser) (evs : List XmlEvent) : IsoCodesParser :=
  evs.foldl (iso_codes_parser_step tr locale) p

/-- The zero-initialized parser of `gimp_language_store_parse_iso_codes`
(`IsoCodesParser parser = { 0, };`): both states are START, depth 0. -/
def iso_codes_parser_initial (env : Option String) : IsoCodesParser :=
  { state := ISO_CODES_START, last_known_state := ISO_CODES_START, unknown_depth := 0,
    adds := [], env := env, warnings := 0, assertFailed := false }

/-- A start tag the current known state does not recognize (the condition
under which `iso_codes_parser_start_element` reaches
`iso_codes_parser_start_unknown`). -/
def iso_codes_unrecognized (s : IsoCodesParserState) (name : String) : Bool :=
  match s with
  | ISO_CODES_START => decide (name ≠ "iso_639_entries") && decide (name ≠ "iso_639_entry")
  | ISO_CODES_IN_ENTRIES => decide (name ≠ "iso_639_entry")
  | ISO_CODES_IN_ENTRY => true
  | ISO_CODES_IN_UNKNOWN => true

/-- Well-formedness of an event sequence relative to `d` already-open
elements: every end tag closes a previously opened start tag. -/
def balancedFrom : Nat → List XmlEvent → Bool
  | _, [] => true
  | d, XmlEvent.startElement _ _ :: evs => balancedFrom (d + 1) evs
  | d, XmlEvent.endElement _ :: evs =>
    match d with
    | 0 => false
    | dd + 1 => balancedFrom dd evs

/- ------------------------------------------------------------------ -/
/- Declarative definitions used by amended claims                     -/
/- ------------------------------------------------------------------ -/

/-- First-defined choice on options (plain priority fallback). -/
def optOr : Option String → Option String → Option String
  | some v, _ => some v
  | none, b => b

/-- The value of the last `iso_639_1_code` attribute of an entry, if any. -/
def last_iso_639_1 : List (String × String) → Option String
  | [] => none
  | (n, v) :: rest =>
    if n = "iso_639_1_code" then optOr (last_iso_639_1 rest) (some v)
    else last_iso_639_1 rest

/-- The value of the first `iso_639_2B_code` or `iso_639_2T_code`
attribute of an entry, in document order, if any. -/
def first_iso_639_2 : List (String × String) → Option String
  | [] => none
  | (n, v) :: rest =>
    if n = "iso_639_2B_code" ∨ n = "iso_639_2T_code" then some v
    else first_iso_639_2 rest

/-- The amended C2 statement of the resolved code: the last canonical
2-letter (`iso_639_1_code`) attribute always wins; only in its absence is
the first alternate (`iso_639_2B_code`/`iso_639_2T_code`) attribute in
document order used. -/
def amended_resolved_code (attrs : List (String × String)) : Option String :=
  optOr (last_iso_639_1 attrs) (first_iso_639_2 attrs)

/- ------------------------------------------------------------------ -/
/- Concrete fixtures for witnesses and counterexamples                -/
/- ------------------------------------------------------------------ -/

/-- Identity translation oracle used by concrete witnesses. -/
def tr_id : Option String → String → String := fun _ s => s

/-- C1 counterexample action: label with a second word whose initials are
x and y. -/
def c1_cex_action : GtkAction :=
  { name := "x-action".toList, label := "xa yb".toList, tooltip := none, sensitive := true }

/-- C1 witness action. -/
def c1_wit_action : GtkAction :=
  { name := "blur-gauss".toList, label := "Gaussian Blur".toList,
    tooltip := none, sensitive := true }

/-- C6 witness action. -/
def c6_wit_action : GtkAction :=
  { name := "gauss".toList, label := "Gaussian Blur".toList,
    tooltip := none, sensitive := true }

/-- C6 counterexample action: whitespace-only label, matching tooltip. -/
def c6_cex_action : GtkAction :=
  { name := "x".toList, label := " ".toList,
    tooltip := some ("the abc tool".toList), sensitive := true }

/-- C8 witness parser: a known state with depth 0. -/
def c8_wit_machine : IsoCodesParser :=
  { state := ISO_CODES_IN_ENTRY, last_known_state := ISO_CODES_START, unknown_depth := 0,
    adds := [], env := none, warnings := 0, assertFailed := false }

/-- C10 witness events: a doubly-nested unrecognized subtree inside the
entries element, fully balanced. -/
def c10_wit_events : List XmlEvent :=
  [XmlEvent.startElement ("iso_639_entries") [], XmlEvent.startElement ("foo") [],
   XmlEvent.startElement ("bar") [], XmlEvent.endElement ("bar"),
   XmlEvent.endElement ("foo"), XmlEvent.endElement ("iso_639_entries")]

/-- C2 counterexample attributes: an alternate code followed by a
canonical 2-letter code. -/
def c2_cex_attrs : List (String × String) :=
  [("iso_639_2B_code", "fre"), ("iso_639_1_code", "fr")]

/-- C3 witness attributes: the Chinese entry. -/
def c3_wit_attrs : List (String × String) :=
  [("name", "Chinese"), ("iso_639_1_code", "zh")]

/-- Inductive invariant of the ISO-codes parser relative to the number `d`
of currently open XML elements: the unknown state holds exactly when the
depth counter is positive; the known states can only occur at bounded
element depth (START only at the root); while skipping, the element depth
is the saved base depth plus the unknown counter, and the saved state is a
known state occurring at its own legal depth; the warning branch and the
assertion never fired. -/
def IsoInv (p : IsoCodesParser) (d : Nat) : Prop :=
  (p.state = ISO_CODES_IN_UNKNOWN ↔ 0 < p.unknown_depth) ∧
  (p.state = ISO_CODES_START → d = 0) ∧
  (p.state = ISO_CODES_IN_ENTRIES → d ≤ 1) ∧
  (p.state = ISO_CODES_IN_ENTRY → 1 ≤ d ∧ d ≤ 2) ∧
  (p.state = ISO_CODES_IN_UNKNOWN →
    p.unknown_depth ≤ d ∧
    p.last_known_state ≠ ISO_CODES_IN_UNKNOWN ∧
    (p.last_known_state = ISO_CODES_START → d = p.unknown_depth) ∧
    (p.last_known_state = ISO_CODES_IN_ENTRIES → d - p.unknown_depth ≤ 1) ∧
    (p.last_known_state = ISO_CODES_IN_ENTRY →
      1 ≤ d - p.unknown_depth ∧ d - p.unknown_depth ≤ 2)) ∧
  p.warnings = 0 ∧ p.assertFailed = false

/- ------------------------------------------------------------------ -/
/- Helper lemmas                                                      -/
/- ------------------------------------------------------------------ -/

theorem optOr_none_left (b : Option String) : optOr none b = b := rfl

theorem optOr_absorb_some (a : Option String) (v : String) (b : Option String) :
    optOr a (optOr (some v) b) = optOr a (some v) := by
  cases a <;> rfl

theorem optOr_some_left (a : Option String) (v : String) (b : Option String) :
    optOr (optOr a (some v)) b = optOr a (some v) := by
  cases a <;> rfl

theorem scan_code_general (attrs : List (String × String)) :
    ∀ lang code, (iso_codes_parser_scan_attrs lang code attrs).2 =
      optOr (last_iso_639_1 attrs) (optOr code (first_iso_639_2 attrs)) := by
  induction attrs with
  | nil =>
    intro lang code
    cases code <;> simp [iso_codes_parser_scan_attrs, last_iso_639_1, first_iso_639_2, optOr]
  | cons p rest ih =>
    intro lang code
    obtain ⟨n, v⟩ := p
    by_cases h1 : n = "name"
    · subst h1
      simp [iso_codes_parser_scan_attrs, last_iso_639_1, first_iso_639_2, ih]
    · by_cases h2 : n = "iso_639_2B_code"
      · subst h2
        cases code with
        | none =>
          simp [iso_codes_parser_scan_attrs, last_iso_639_1, first_iso_639_2, ih,
                optOr_none_left, optOr_absorb_some]
        | some c =>
          simp [iso_codes_parser_scan_attrs, last_iso_639_1, first_iso_639_2, ih,
                optOr_absorb_some]
      · by_cases h3 : n = "iso_639_2T_code"
        · subst h3
          cases code with
          | none =>
            simp [iso_codes_parser_scan_attrs, last_iso_639_1, first_iso_639_2, ih,
                  optOr_none_left, optOr_absorb_some]
          | some c =>
            simp [iso_codes_parser_scan_attrs, last_iso_639_1, first_iso_639_2, ih,
                  optOr_absorb_some]
        · by_cases h4 : n = "iso_639_1_code"
          · subst h4
            simp [iso_codes_parser_scan_attrs, last_iso_639_1, first_iso_639_2, ih,
                  optOr_absorb_some, optOr_some_left]
          · simp [iso_codes_parser_scan_attrs, last_iso_639_1, first_iso_639_2,
                  h1, h2, h3, h4, ih]

theorem self_l10n_adds_code (tr : Option String → String → String) (locale : String)
    (env : Option String) (l c : String) (hl : l ≠ "") (hc : c ≠ "") :
    (gimp_language_store_self_l10n tr locale env (some l) (some c)).adds.map Prod.snd = [c] := by
  by_cases hen : c ≠ "en" <;>
    simp [gimp_language_store_self_l10n, hl, hc, hen]

/- ------------------------------------------------------------------ -/
/- Claim theorems                                                     -/
/- ------------------------------------------------------------------ -/

/-- C4: the recursive greedy matcher `action_fuzzy_match` returns true
exactly when the keyword is a subsequence of the label: every keyword
character appears in the label in the same relative order, not necessarily
contiguously.  The leftmost-greedy strategy coincides with the declarative
subsequence definition (`List.Sublist`). -/
theorem c4_fuzzy_match_iff_sublist (s k : List Char) :
    action_fuzzy_match s k = true ↔ List.Sublist k s := by
  induction s generalizing k with
  | nil =>
    cases k with
    | nil => simp [action_fuzzy_match]
    | cons c ks => simp [action_fuzzy_match, strchr]
  | cons a s ih =>
    cases k with
    | nil => simp [action_fuzzy_match]
    | cons c ks =>
      by_cases hca : a = c
      · subst hca
        have hs : strchr (a :: s) a = some s := by simp [strchr]
        have hred : action_fuzzy_match (a :: s) (a :: ks) = action_fuzzy_match s ks := by
          simp [action_fuzzy_match, hs]
        rw [hred, ih ks]
        exact (List.cons_sublist_cons).symm
      · have hs : strchr (a :: s) c = strchr s c := by simp [strchr, hca]
        have hred : action_fuzzy_match (a :: s) (c :: ks) = action_fuzzy_match s (c :: ks) := by
          simp only [action_fuzzy_match, hs]
        rw [hred, ih (c :: ks)]
        constructor
        · intro h; exact h.cons a
        · intro h
          cases h with
          | cons _ h2 => exact h2
          | cons₂ _ h2 => exact absurd rfl hca

/-- C7: confirming a selection whose action is disabled is a no-op — no
activation, no teardown, nothing else changed — and with an enabled
selected action the activation callback runs followed by teardown (with no
selection nothing happens at all). -/
theorem c7_run_selected_disabled_noop (a : GtkAction) :
    action_search_run_selected (some a) =
      { activated := a.sensitive, finalized := a.sensitive } ∧
    action_search_run_selected none = { activated := false, finalized := false } := by
  refine ⟨?_, rfl⟩
  cases h : a.sensitive <;> simp [action_search_run_selected, h]

/-- C1 counterexample: for the label "xa yb" (which has a second word) and
the two-character keyword "ab", the matcher matches (via the fuzzy rule,
section 4) although the keyword's first character does not equal the
label's first character — refuting the claimed "iff". -/
theorem c1_counterexample :
    action_search_match_keyword c1_cex_action (some ("ab".toList)) = some 4 ∧
    (lowerStr c1_cex_action.label).head? = some 'x' ∧ ('x' : Char) ≠ 'a' := by
  decide

/-- C1 (amended): for a two-character keyword whose lowercased characters
equal the label's lowercased first character and the lowercased character
right after the label's first space, `action_search_match_keyword` matches
with section 1.  (The converse direction of the original claim fails: a
two-character keyword can also match through the substring or subsequence
rules, see the counterexample.) -/
theorem c1_two_char_initials (a : GtkAction) (k : List Char) (k0 k1 : Char)
    (hk : lowerStr k = [k0, k1])
    (hhead : (lowerStr a.label).head? = some k0)
    (hspace : after_first_space (lowerStr a.label) = some k1) :
    action_search_match_keyword a (some k) = some 1 := by
  have htwo : two_char_rule (lowerStr a.label) k0 k1 = true := by
    cases hl : lowerStr a.label with
    | nil => rw [hl] at hhead; simp at hhead
    | cons l0 rest =>
      rw [hl] at hhead hspace
      have hl0 : l0 = k0 := by simpa using hhead
      subst hl0
      simp [two_char_rule, hspace]
  simp [action_search_match_keyword, hk, htwo]

/-- C1 witness: "Gaussian Blur" with keyword "gb" matches with section 1
through the amended statement. -/
theorem c1_witness :
    lowerStr ("gb".toList) = ['g', 'b'] ∧
    (lowerStr c1_wit_action.label).head? = some 'g' ∧
    after_first_space (lowerStr c1_wit_action.label) = some 'b' ∧
    action_search_match_keyword c1_wit_action (some ("gb".toList)) = some 1 :=
  ⟨by decide, by decide, by decide,
   c1_two_char_initials c1_wit_action ("gb".toList) 'g' 'b'
     (by decide) (by decide) (by decide)⟩

/-- C2 counterexample: with attributes (iso_639_2B_code = "fre",
iso_639_1_code = "fr") the parser resolves the code to "fr": the
2-letter 639-1 code overwrites the already-chosen 2B code, refuting the
claimed 2B-first priority. -/
theorem c2_counterexample :
    (iso_codes_parser_scan_attrs none none c2_cex_attrs).2 = some ("fr") ∧
    some ("fr") ≠ some ("fre") := by
  decide

/-- C2 (amended): the resolved code is the value of the last
`iso_639_1_code` attribute when one is present (that attribute always
overwrites); only in its absence is the first `iso_639_2B_code` or
`iso_639_2T_code` attribute, in document order, used. -/
theorem c2_code_resolution (attrs : List (String × String)) :
    (iso_codes_parser_scan_attrs none none attrs).2 = amended_resolved_code attrs := by
  rw [scan_code_general attrs none none]
  simp [amended_resolved_code, optOr_none_left]

/-- C3: an entry whose resolved code is exactly "zh" adds exactly three
language entries, with codes zh_CN, zh_TW and zh_HK in that order, and no
entry with code "zh" is ever added — for every translation oracle, ambient
locale and initial LANGUAGE value. -/
theorem c3_zh_three_variants (tr : Option String → String → String) (locale : String)
    (env : Option String) (attrs : List (String × String))
    (hzh : (iso_codes_parser_scan_attrs none none attrs).2 = some ("zh")) :
    (iso_codes_parser_entry_run tr locale env attrs).1.map Prod.snd =
      [("zh_CN" : String), "zh_TW", "zh_HK"] ∧
    ("zh" : String) ∉ (iso_codes_parser_entry_run tr locale env attrs).1.map Prod.snd := by
  have h1 : ∀ e, (gimp_language_store_self_l10n tr locale e (some ("Chinese"))
      (some ("zh_CN"))).adds.map Prod.snd = [("zh_CN" : String)] :=
    fun e => self_l10n_adds_code tr locale e ("Chinese") ("zh_CN") (by decide) (by decide)
  have h2 : ∀ e, (gimp_language_store_self_l10n tr locale e (some ("Chinese"))
      (some ("zh_TW"))).adds.map Prod.snd = [("zh_TW" : String)] :=
    fun e => self_l10n_adds_code tr locale e ("Chinese") ("zh_TW") (by decide) (by decide)
  have h3 : ∀ e, (gimp_language_store_self_l10n tr locale e (some ("Chinese"))
      (some ("zh_HK"))).adds.map Prod.snd = [("zh_HK" : String)] :=
    fun e => self_l10n_adds_code tr locale e ("Chinese") ("zh_HK") (by decide) (by decide)
  have hmap : (iso_codes_parser_entry_run tr locale env attrs).1.map Prod.snd =
      [("zh_CN" : String), "zh_TW", "zh_HK"] := by
    simp [iso_codes_parser_entry_run, hzh, List.map_append, h1, h2, h3]
  refine ⟨hmap, ?_⟩
  rw [hmap]
  decide

/-- C3 witness: the attributes (name = "Chinese", iso_639_1_code = "zh")
resolve to code "zh" and produce exactly the three regional variants. -/
theorem c3_witness :
    (iso_codes_parser_scan_attrs none none c3_wit_attrs).2 = some ("zh") ∧
    (iso_codes_parser_entry_run tr_id ("C") none c3_wit_attrs).1.map Prod.snd =
      [("zh_CN" : String), "zh_TW", "zh_HK"] :=
  ⟨by decide, (c3_zh_three_variants tr_id ("C") none c3_wit_attrs (by decide)).1⟩

/-- C9: every `gimp_language_store_self_l10n` call leaves the `LANGUAGE`
environment variable exactly as it found it — the saved value is re-set,
or the variable unset when it was absent — and for the code "en" the
variable is never touched at all (no environment operations happen). -/
theorem c9_language_env_restored (tr : Option String → String → String) (locale : String)
    (env : Option String) (lang code : Option String) :
    applyEnvOps env (gimp_language_store_self_l10n tr locale env lang code).ops = env ∧
    (code = some ("en") → (gimp_language_store_self_l10n tr locale env lang code).ops = []) := by
  constructor
  · cases lang with
    | none => rfl
    | some l =>
      cases code with
      | none => rfl
      | some c =>
        by_cases hg : l ≠ "" ∧ c ≠ ""
        · by_cases hen : c ≠ "en"
          · cases env <;>
              simp [gimp_language_store_self_l10n, hg, hen, applyEnvOps, self_l10n_restore_op]
          · simp [gimp_language_store_self_l10n, hg, hen, applyEnvOps]
        · simp [gimp_language_store_self_l10n, hg, applyEnvOps]
  · intro hcode
    subst hcode
    cases lang with
    | none => rfl
    | some l =>
      by_cases hg : l ≠ "" ∧ ("en" : String) ≠ ""
      · simp [gimp_language_store_self_l10n, hg]
      · have hl : l = "" := by
          by_contra hne
          exact hg ⟨hne, by decide⟩
        simp [gimp_language_store_self_l10n, hl]

/-- C9 witness: a concrete localization call restores LANGUAGE = "fr", and
a call for the "en" code performs no environment operation. -/
theorem c9_witness :
    applyEnvOps (some ("fr"))
      (gimp_language_store_self_l10n tr_id ("C") (some ("fr")) (some ("German"))
        (some ("de"))).ops = some ("fr") ∧
    (gimp_language_store_self_l10n tr_id ("C") (some ("fr")) (some ("English"))
        (some ("en"))).ops = [] :=
  ⟨(c9_language_env_restored tr_id ("C") (some ("fr")) (some ("German")) (some ("de"))).1,
   (c9_language_env_restored tr_id ("C") (some ("fr")) (some ("English")) (some ("en"))).2 rfl⟩

/- ------------------------------------------------------------------ -/
/- Result-list insertion lemmas (C5, C6)                              -/
/- ------------------------------------------------------------------ -/

theorem insert_by_section_perm {β : Type} (rows : List (Int × β)) (r : Int × β) :
    List.Perm (insert_by_section rows r) (r :: rows) := by
  induction rows with
  | nil => exact List.Perm.refl _
  | cons x xs ih =>
    by_cases h : r.1 < x.1
    · simp only [insert_by_section, if_pos h]
      exact List.Perm.refl _
    · simp only [insert_by_section, if_neg h]
      exact (ih.cons x).trans (List.Perm.swap r x xs)

theorem mem_insert_by_section {β : Type} {rows : List (Int × β)} {r y : Int × β} :
    y ∈ insert_by_section rows r ↔ y = r ∨ y ∈ rows := by
  rw [(insert_by_section_perm rows r).mem_iff]
  simp

theorem insert_by_section_pairwise {β : Type} (tag : β → Nat)
    (rows : List (Int × β)) (r : Int × β)
    (hp : rows.Pairwise (fun u w => u.1 ≤ w.1 ∧ (u.1 = w.1 → tag u.2 < tag w.2)))
    (ht : ∀ y ∈ rows, tag y.2 < tag r.2) :
    (insert_by_section rows r).Pairwise
      (fun u w => u.1 ≤ w.1 ∧ (u.1 = w.1 → tag u.2 < tag w.2)) := by
  induction rows with
  | nil => exact List.Pairwise.cons (by simp) List.Pairwise.nil
  | cons x xs ih =>
    rw [List.pairwise_cons] at hp
    obtain ⟨hx, hxs⟩ := hp
    by_cases h : r.1 < x.1
    · simp only [insert_by_section, if_pos h]
      rw [List.pairwise_cons]
      constructor
      · intro y hy
        rcases List.mem_cons.mp hy with rfl | hy
        · exact ⟨le_of_lt h, fun he => absurd he (ne_of_lt h)⟩
        · have hxy := hx y hy
          exact ⟨le_of_lt (lt_of_lt_of_le h hxy.1),
                 fun he => absurd he (ne_of_lt (lt_of_lt_of_le h hxy.1))⟩
      · rw [List.pairwise_cons]
        exact ⟨hx, hxs⟩
    · simp only [insert_by_section, if_neg h]
      rw [List.pairwise_cons]
      constructor
      · intro y hy
        rcases mem_insert_by_section.mp hy with rfl | hy
        · exact ⟨le_of_not_lt h, fun _ => ht x (List.mem_cons_self x xs)⟩
        · exact hx y hy
      · exact ih hxs (fun y hy => ht y (List.mem_cons_of_mem x hy))

theorem build_tagged_invariant (inserts : List (GtkAction × Int)) :
    ∀ (n : Nat) (acc : List (Int × (GtkAction × Nat))),
      acc.Pairwise (fun u w => u.1 ≤ w.1 ∧ (u.1 = w.1 → u.2.2 < w.2.2)) →
      (∀ y ∈ acc, y.2.2 < n) →
      (action_search_build_tagged n acc inserts).Pairwise
          (fun u w => u.1 ≤ w.1 ∧ (u.1 = w.1 → u.2.2 < w.2.2)) ∧
      (∀ y ∈ action_search_build_tagged n acc inserts, y.2.2 < n + inserts.length) := by
  induction inserts with
  | nil =>
    intro n acc hp hb
    exact ⟨hp, fun y hy => by have := hb y hy; simpa using this⟩
  | cons p rest ih =>
    intro n acc hp hb
    obtain ⟨a, sec⟩ := p
    by_cases hlab : g_strstrip a.label = []
    · simp only [action_search_build_tagged, if_pos hlab]
      have hrec := ih (n + 1) acc hp (fun y hy => Nat.lt_succ_of_lt (hb y hy))
      refine ⟨hrec.1, fun y hy => ?_⟩
      have := hrec.2 y hy
      simp only [List.length_cons]
      omega
    · simp only [action_search_build_tagged, if_neg hlab]
      have hp2 := insert_by_section_pairwise (fun q => q.2) acc (sec, (a, n)) hp
        (fun y hy => hb y hy)
      have hb2 : ∀ y ∈ insert_by_section acc (sec, (a, n)), y.2.2 < n + 1 := by
        intro y hy
        rcases mem_insert_by_section.mp hy with rfl | hy
        · simp
        · exact Nat.lt_succ_of_lt (hb y hy)
      have hrec := ih (n + 1) _ hp2 hb2
      refine ⟨hrec.1, fun y hy => ?_⟩
      have := hrec.2 y hy
      simp only [List.length_cons]
      omega

theorem insert_by_section_map_proj (rows : List (Int × (GtkAction × Nat)))
    (r : Int × (GtkAction × Nat)) :
    (insert_by_section rows r).map (fun q => (q.1, q.2.1)) =
      insert_by_section (rows.map (fun q => (q.1, q.2.1))) (r.1, r.2.1) := by
  induction rows with
  | nil => rfl
  | cons x xs ih =>
    by_cases h : r.1 < x.1
    · simp [insert_by_section, h]
    · simp [insert_by_section, h, ih]

theorem build_tagged_proj (inserts : List (GtkAction × Int)) :
    ∀ (n : Nat) (acc : List (Int × (GtkAction × Nat))),
      (action_search_build_tagged n acc inserts).map (fun q => (q.1, q.2.1)) =
        inserts.foldl (fun rows p => action_search_add_to_results_list rows p.1 p.2)
          (acc.map (fun q => (q.1, q.2.1))) := by
  induction inserts with
  | nil => intro n acc; rfl
  | cons p rest ih =>
    intro n acc
    obtain ⟨a, sec⟩ := p
    by_cases hlab : g_strstrip a.label = []
    · simp only [action_search_build_tagged, if_pos hlab, List.foldl_cons]
      rw [ih]
      simp [action_search_add_to_results_list, hlab]
    · simp only [action_search_build_tagged, if_neg hlab, List.foldl_cons]
      rw [ih]
      simp only [action_search_add_to_results_list, if_neg hlab]
      rw [insert_by_section_map_proj]

/-- C5: after any sequence of insertions through
`action_search_add_to_results_list` starting from the cleared list, the
result rows are in non-decreasing section order, and rows of equal section
appear in their insertion order (stable insertion).  The tagged build
records each insertion's sequence number; the third conjunct shows it
projects exactly onto the untagged `action_search_add_to_results_list`
fold. -/
theorem c5_results_sorted_stable (inserts : List (GtkAction × Int)) :
    (action_search_build_tagged 0 [] inserts).Pairwise (fun u w => u.1 ≤ w.1) ∧
    (action_search_build_tagged 0 [] inserts).Pairwise
      (fun u w => u.1 = w.1 → u.2.2 < w.2.2) ∧
    (action_search_build_tagged 0 [] inserts).map (fun q => (q.1, q.2.1)) =
      inserts.foldl (fun rows p => action_search_add_to_results_list rows p.1 p.2) [] := by
  have h := build_tagged_invariant inserts 0 [] (by simp) (by simp)
  refine ⟨h.1.imp (fun hq => hq.1), h.1.imp (fun hq => hq.2), ?_⟩
  have hp := build_tagged_proj inserts 0 []
  simpa using hp

/- ------------------------------------------------------------------ -/
/- History / catalog aggregation lemmas (C6)                          -/
/- ------------------------------------------------------------------ -/

theorem countP_add_to_results (n : List Char) (rows : List (Int × GtkAction))
    (a : GtkAction) (sec : Int) :
    (action_search_add_to_results_list rows a sec).countP (fun r => decide (r.2.name = n)) =
      rows.countP (fun r => decide (r.2.name = n)) +
        (if g_strstrip a.label = [] then 0 else if a.name = n then 1 else 0) := by
  by_cases hlab : g_strstrip a.label = []
  · simp [action_search_add_to_results_list, hlab]
  · simp only [action_search_add_to_results_list, if_neg hlab]
    rw [List.Perm.countP_eq _ (insert_by_section_perm rows (sec, a)), List.countP_cons]
    by_cases hn : a.name = n <;> simp [hlab, hn]

theorem countP_history_fold (n : List Char) (hist : List GtkAction) :
    ∀ acc : List (Int × GtkAction),
      (hist.foldl (fun rows a => action_search_add_to_results_list rows a 0) acc).countP
          (fun r => decide (r.2.name = n)) =
        acc.countP (fun r => decide (r.2.name = n)) +
          hist.countP (fun h => decide (h.name = n) && !(decide (g_strstrip h.label = []))) := by
  induction hist with
  | nil => intro acc; simp
  | cons a rest ih =>
    intro acc
    simp only [List.foldl_cons]
    rw [ih, countP_add_to_results, List.countP_cons]
    by_cases hlab : g_strstrip a.label = [] <;> by_cases hn : a.name = n <;>
      simp [hlab, hn] <;> omega

theorem history_fold_sections (hist : List GtkAction) :
    ∀ acc : List (Int × GtkAction), (∀ r ∈ acc, r.1 = 0) →
      ∀ r ∈ hist.foldl (fun rows a => action_search_add_to_results_list rows a 0) acc,
        r.1 = 0 := by
  induction hist with
  | nil => intro acc h; exact h
  | cons a rest ih =>
    intro acc h
    simp only [List.foldl_cons]
    refine ih _ ?_
    intro r hr
    simp only [action_search_add_to_results_list] at hr
    by_cases hlab : g_strstrip a.label = []
    · rw [if_pos hlab] at hr
      exact h r hr
    · rw [if_neg hlab] at hr
      rcases mem_insert_by_section.mp hr with rfl | hr
      · rfl
      · exact h r hr

theorem catalog_step_countP (keyword : Option (List Char)) (history : List GtkAction)
    (cfg : Bool) (n : List Char)
    (hany : history.any (fun h => decide (h.name = n)) = true)
    (rows : List (Int × GtkAction)) (b : GtkAction) :
    (action_search_catalog_step keyword history cfg rows b).countP
        (fun r => decide (r.2.name = n)) =
      rows.countP (fun r => decide (r.2.name = n)) := by
  by_cases h1 : action_search_skip_name b.name
  · simp [action_search_catalog_step, h1]
  · by_cases h2 : (!b.sensitive && !cfg) = true
    · simp [action_search_catalog_step, h1, h2]
    · cases hm : action_search_match_keyword b keyword with
      | none => simp [action_search_catalog_step, h1, h2, hm]
      | some sec =>
        by_cases h3 : history.any (fun h => decide (h.name = b.name)) = true
        · simp [action_search_catalog_step, h1, h2, hm, h3]
        · have hbn : b.name ≠ n := by
            intro he
            rw [he] at h3
            exact h3 hany
          simp [action_search_catalog_step, h1, h2, hm, h3, countP_add_to_results, hbn]

theorem catalog_step_sections (keyword : Option (List Char)) (history : List GtkAction)
    (cfg : Bool) (n : List Char)
    (hany : history.any (fun h => decide (h.name = n)) = true)
    (rows : List (Int × GtkAction)) (b : GtkAction)
    (hrows : ∀ r ∈ rows, r.2.name = n → r.1 = 0) :
    ∀ r ∈ action_search_catalog_step keyword history cfg rows b, r.2.name = n → r.1 = 0 := by
  intro r hr
  by_cases h1 : action_search_skip_name b.name
  · simp only [action_search_catalog_step, if_pos h1] at hr
    exact hrows r hr
  · simp only [action_search_catalog_step, if_neg h1] at hr
    by_cases h2 : (!b.sensitive && !cfg) = true
    · rw [if_pos h2] at hr
      exact hrows r hr
    · rw [if_neg h2] at hr
      cases hm : action_search_match_keyword b keyword with
      | none =>
        rw [hm] at hr
        exact hrows r hr
      | some sec =>
        rw [hm] at hr
        have hr2 : r ∈ (if (history.any fun h => decide (h.name = b.name)) = true then rows
            else action_search_add_to_results_list rows b sec) := hr
        by_cases h3 : (history.any fun h => decide (h.name = b.name)) = true
        · rw [if_pos h3] at hr2
          exact hrows r hr2
        · rw [if_neg h3] at hr2
          have hbn : b.name ≠ n := by
            intro he
            rw [he] at h3
            exact h3 hany
          simp only [action_search_add_to_results_list] at hr2
          by_cases hlab : g_strstrip b.label = []
          · rw [if_pos hlab] at hr2
            exact hrows r hr2
          · rw [if_neg hlab] at hr2
            rcases mem_insert_by_section.mp hr2 with rfl | hr2
            · intro he
              exact absurd he hbn
            · exact hrows r hr2

theorem catalog_group_countP (keyword : Option (List Char)) (history : List GtkAction)
    (cfg : Bool) (n : List Char)
    (hany : history.any (fun h => decide (h.name = n)) = true) (grp : List GtkAction) :
    ∀ rows : List (Int × GtkAction),
      (grp.foldl (action_search_catalog_step keyword history cfg) rows).countP
          (fun r => decide (r.2.name = n)) =
        rows.countP (fun r => decide (r.2.name = n)) := by
  induction grp with
  | nil => intro rows; rfl
  | cons b rest ih =>
    intro rows
    simp only [List.foldl_cons]
    rw [ih, catalog_step_countP keyword history cfg n hany]

theorem catalog_groups_countP (keyword : Option (List Char)) (history : List GtkAction)
    (cfg : Bool) (n : List Char)
    (hany : history.any (fun h => decide (h.name = n)) = true)
    (groups : List (List GtkAction)) :
    ∀ rows : List (Int × GtkAction),
      (groups.foldl
          (fun rows grp => grp.foldl (action_search_catalog_step keyword history cfg) rows)
          rows).countP (fun r => decide (r.2.name = n)) =
        rows.countP (fun r => decide (r.2.name = n)) := by
  induction groups with
  | nil => intro rows; rfl
  | cons grp rest ih =>
    intro rows
    simp only [List.foldl_cons]
    rw [ih, catalog_group_countP keyword history cfg n hany]

theorem catalog_group_sections (keyword : Option (List Char)) (history : List GtkAction)
    (cfg : Bool) (n : List Char)
    (hany : history.any (fun h => decide (h.name = n)) = true) (grp : List GtkAction) :
    ∀ rows : List (Int × GtkAction), (∀ r ∈ rows, r.2.name = n → r.1 = 0) →
      ∀ r ∈ grp.foldl (action_search_catalog_step keyword history cfg) rows,
        r.2.name = n → r.1 = 0 := by
  induction grp with
  | nil => intro rows h; exact h
  | cons b rest ih =>
    intro rows h
    simp only [List.foldl_cons]
    exact ih _ (catalog_step_sections keyword history cfg n hany rows b h)

theorem catalog_groups_sections (keyword : Option (List Char)) (history : List GtkAction)
    (cfg : Bool) (n : List Char)
    (hany : history.any (fun h => decide (h.name = n)) = true)
    (groups : List (List GtkAction)) :
    ∀ rows : List (Int × GtkAction), (∀ r ∈ rows, r.2.name = n → r.1 = 0) →
      ∀ r ∈ groups.foldl
          (fun rows grp => grp.foldl (action_search_catalog_step keyword history cfg) rows)
          rows,
        r.2.name = n → r.1 = 0 := by
  induction groups with
  | nil => intro rows h; exact h
  | cons grp rest ih =>
    intro rows h
    simp only [List.foldl_cons]
    exact ih _ (catalog_group_sections keyword history cfg n hany grp rows h)

/-- C6 counterexample: an action with a whitespace-only label but a
matching tooltip is in the history results and in the catalog, and it
matches the keyword, yet the final results list contains no row at all for
it — `action_search_add_to_results_list` drops empty-label actions and the
catalog pass skips it as redundant — refuting "exactly one row". -/
theorem c6_counterexample :
    action_search_history_and_actions (some ("abc".toList)) [c6_cex_action]
        [[c6_cex_action]] true = [] ∧
    (action_search_match_keyword c6_cex_action (some ("abc".toList))).isSome = true ∧
    c6_cex_action ∈ [c6_cex_action] := by
  refine ⟨by decide, by decide, ?_⟩
  exact List.mem_singleton.mpr rfl

/-- C6 (amended): for a non-empty keyword and an action that matches it,
occurs (by name) exactly once in the recent-history results, has a
non-empty stripped label, and also appears in the catalog scan, the final
results list contains exactly one row bearing that action's name, and
every such row sits at history section 0.  (The original claim fails
without the label and multiplicity provisos, see the counterexample.) -/
theorem c6_history_dedup (k : List Char) (a : GtkAction) (history : List GtkAction)
    (groups : List (List GtkAction)) (cfg : Bool)
    (hk : k ≠ [])
    (hmem : a ∈ history)
    (huniq : history.countP (fun h => decide (h.name = a.name)) = 1)
    (hlabel : g_strstrip a.label ≠ [])
    (hmatch : (action_search_match_keyword a (some k)).isSome = true)
    (hcat : ∃ g ∈ groups, a ∈ g) :
    (action_search_history_and_actions (some k) history groups cfg).countP
        (fun r => decide (r.2.name = a.name)) = 1 ∧
    ∀ r ∈ action_search_history_and_actions (some k) history groups cfg,
      r.2.name = a.name → r.1 = 0 := by
  have hne : (some k : Option (List Char)) ≠ some [] := by
    intro he
    injection he with he2
    exact hk he2
  have hany : history.any (fun h => decide (h.name = a.name)) = true := by
    rw [List.any_eq_true]
    exact ⟨a, hmem, by simp⟩
  have hcount2 : history.countP
      (fun h => decide (h.name = a.name) && !(decide (g_strstrip h.label = []))) = 1 := by
    have hle : history.countP
        (fun h => decide (h.name = a.name) && !(decide (g_strstrip h.label = []))) ≤
        history.countP (fun h => decide (h.name = a.name)) :=
      List.countP_mono_left (fun x _ hx => by
        simp only [Bool.and_eq_true] at hx
        exact hx.1)
    have hpos : 0 < history.countP
        (fun h => decide (h.name = a.name) && !(decide (g_strstrip h.label = []))) := by
      rw [List.countP_pos_iff]
      exact ⟨a, hmem, by simp [hlabel]⟩
    omega
  constructor
  · unfold action_search_history_and_actions
    rw [if_neg hne]
    rw [catalog_groups_countP (some k) history cfg a.name hany]
    rw [countP_history_fold]
    simpa using hcount2
  · unfold action_search_history_and_actions
    rw [if_neg hne]
    refine catalog_groups_sections (some k) history cfg a.name hany groups _ ?_
    intro r hr _
    exact history_fold_sections history [] (by simp) r hr

/-- C6 witness: "Gaussian Blur" searched with keyword "ga", present both
in history and in the catalog, yields exactly one row with its name. -/
theorem c6_witness :
    (("ga".toList : List Char) ≠ []) ∧
    c6_wit_action ∈ [c6_wit_action] ∧
    [c6_wit_action].countP (fun h => decide (h.name = c6_wit_action.name)) = 1 ∧
    g_strstrip c6_wit_action.label ≠ [] ∧
    (action_search_match_keyword c6_wit_action (some ("ga".toList))).isSome = true ∧
    (action_search_history_and_actions (some ("ga".toList)) [c6_wit_action]
        [[c6_wit_action]] true).countP
      (fun r => decide (r.2.name = c6_wit_action.name)) = 1 :=
  ⟨by decide, by decide, by decide, by decide, by decide,
   (c6_history_dedup ("ga".toList) c6_wit_action [c6_wit_action] [[c6_wit_action]] true
     (by decide) (by decide) (by decide) (by decide) (by decide)
     ⟨[c6_wit_action], by decide, by decide⟩).1⟩

/- ------------------------------------------------------------------ -/
/- Unknown-element skipping lemmas (C8)                               -/
/- ------------------------------------------------------------------ -/

theorem iso_run_append (tr : Option String → String → String) (locale : String)
    (p : IsoCodesParser) (xs ys : List XmlEvent) :
    iso_codes_parser_run tr locale p (xs ++ ys) =
      iso_codes_parser_run tr locale (iso_codes_parser_run tr locale p xs) ys := by
  simp [iso_codes_parser_run, List.foldl_append]

theorem start_unknown_from_known (tr : Option String → String → String) (locale : String)
    (p : IsoCodesParser) (name : String) (attrs : List (String × String))
    (hstate : p.state ≠ ISO_CODES_IN_UNKNOWN) (hdepth : p.unknown_depth = 0)
    (hname : iso_codes_unrecognized p.state name = true) :
    iso_codes_parser_start_element tr locale p name attrs =
      { p with state := ISO_CODES_IN_UNKNOWN, last_known_state := p.state,
               unknown_depth := 1 } := by
  cases hs : p.state with
  | ISO_CODES_START =>
    rw [hs] at hname
    simp only [iso_codes_unrecognized, Bool.and_eq_true, decide_eq_true_eq] at hname
    simp [iso_codes_parser_start_element, hs, hname.1, hname.2,
          iso_codes_parser_start_unknown, hdepth]
  | ISO_CODES_IN_ENTRIES =>
    rw [hs] at hname
    simp only [iso_codes_unrecognized, decide_eq_true_eq] at hname
    simp [iso_codes_parser_start_element, hs, hname,
          iso_codes_parser_start_unknown, hdepth]
  | ISO_CODES_IN_ENTRY =>
    simp [iso_codes_parser_start_element, hs, iso_codes_parser_start_unknown, hdepth]
  | ISO_CODES_IN_UNKNOWN => exact absurd hs hstate

theorem step_start_in_unknown (tr : Option String → String → String) (locale : String)
    (q : IsoCodesParser) (name : String) (attrs : List (String × String))
    (hs : q.state = ISO_CODES_IN_UNKNOWN) (hd : 0 < q.unknown_depth) :
    iso_codes_parser_step tr locale q (XmlEvent.startElement name attrs) =
      { q with unknown_depth := q.unknown_depth + 1 } := by
  have hd0 : ¬ q.unknown_depth = 0 := Nat.pos_iff_ne_zero.mp hd
  simp [iso_codes_parser_step, iso_codes_parser_start_element, hs,
        iso_codes_parser_start_unknown, hd0]

theorem run_starts_in_unknown (tr : Option String → String → String) (locale : String)
    (more : List (String × List (String × String))) :
    ∀ q : IsoCodesParser, q.state = ISO_CODES_IN_UNKNOWN → 0 < q.unknown_depth →
      iso_codes_parser_run tr locale q (more.map (fun e => XmlEvent.startElement e.1 e.2)) =
        { q with unknown_depth := q.unknown_depth + more.length } := by
  induction more with
  | nil =>
    intro q hs hd
    simp [iso_codes_parser_run]
  | cons e rest ih =>
    intro q hs hd
    have hstep := step_start_in_unknown tr locale q e.1 e.2 hs hd
    have hcons : iso_codes_parser_run tr locale q
        ((e :: rest).map (fun x => XmlEvent.startElement x.1 x.2)) =
        iso_codes_parser_run tr locale
          (iso_codes_parser_step tr locale q (XmlEvent.startElement e.1 e.2))
          (rest.map (fun x => XmlEvent.startElement x.1 x.2)) := rfl
    rw [hcons, hstep, ih { q with unknown_depth := q.unknown_depth + 1 } hs (by simp)]
    have harith : q.unknown_depth + 1 + rest.length = q.unknown_depth + (e :: rest).length := by
      simp [List.length_cons]
      omega
    rw [harith]

theorem step_end_in_unknown (tr : Option String → String → String) (locale : String)
    (q : IsoCodesParser) (name : String)
    (hs : q.state = ISO_CODES_IN_UNKNOWN) (hd : 0 < q.unknown_depth) :
    iso_codes_parser_step tr locale q (XmlEvent.endElement name) =
      (if q.unknown_depth - 1 = 0 then
        { q with unknown_depth := 0, state := q.last_known_state }
       else { q with unknown_depth := q.unknown_depth - 1 }) := by
  simp [iso_codes_parser_step, iso_codes_parser_end_element, hs,
        iso_codes_parser_end_unknown, hd]

theorem run_ends_in_unknown (tr : Option String → String → String) (locale : String) :
    ∀ (m : Nat) (q : IsoCodesParser), q.state = ISO_CODES_IN_UNKNOWN →
      0 < q.unknown_depth → m ≤ q.unknown_depth →
      ((iso_codes_parser_run tr locale q
          (List.replicate m (XmlEvent.endElement ("x")))).state =
        (if m = q.unknown_depth then q.last_known_state else ISO_CODES_IN_UNKNOWN)) ∧
      (iso_codes_parser_run tr locale q
          (List.replicate m (XmlEvent.endElement ("x")))).unknown_depth =
        q.unknown_depth - m ∧
      (iso_codes_parser_run tr locale q
          (List.replicate m (XmlEvent.endElement ("x")))).last_known_state =
        q.last_known_state := by
  intro m
  induction m with
  | zero =>
    intro q hs hd _
    refine ⟨?_, by simp [iso_codes_parser_run], by simp [iso_codes_parser_run]⟩
    have hne : ¬ (0 = q.unknown_depth) := by omega
    simp [iso_codes_parser_run, hs, hne]
  | succ mm ih =>
    intro q hs hd hm
    have hstep := step_end_in_unknown tr locale q ("x") hs hd
    have hcons : iso_codes_parser_run tr locale q
        (List.replicate (mm + 1) (XmlEvent.endElement ("x"))) =
        iso_codes_parser_run tr locale
          (iso_codes_parser_step tr locale q (XmlEvent.endElement ("x")))
          (List.replicate mm (XmlEvent.endElement ("x"))) := by
      rw [List.replicate_succ]
      rfl
    by_cases hone : q.unknown_depth - 1 = 0
    · have hdepth1 : q.unknown_depth = 1 := by omega
      have hmm : mm = 0 := by omega
      subst hmm
      rw [hcons, hstep, if_pos hone]
      have hfin : (1 : Nat) = q.unknown_depth := by omega
      refine ⟨?_, by simp [iso_codes_parser_run, hdepth1], by simp [iso_codes_parser_run]⟩
      simp [iso_codes_parser_run, hfin]
    · rw [hcons, hstep, if_neg hone]
      have hrec := ih { q with unknown_depth := q.unknown_depth - 1 } hs (by simp; omega)
        (by simp; omega)
      obtain ⟨hst, hdep, hlast⟩ := hrec
      refine ⟨?_, ?_, ?_⟩
      · rw [hst]
        by_cases hfin : mm + 1 = q.unknown_depth
        · rw [if_pos hfin, if_pos (by simp; omega : mm =
            ({ q with unknown_depth := q.unknown_depth - 1 } : IsoCodesParser).unknown_depth)]
        · rw [if_neg hfin, if_neg (by simp; omega : ¬ mm =
            ({ q with unknown_depth := q.unknown_depth - 1 } : IsoCodesParser).unknown_depth)]
      · rw [hdep]
        simp
        omega
      · rw [hlast]

/-- C8: from any known parser state at unknown-depth 0, an unrecognized
start tag saves that state and enters the unknown state at depth 1; each
further nested start tag (all tags are unrecognized while skipping) only
increments the depth, and after `m` end tags the parser is back in the
saved known state exactly when `m` matches the count of unrecognized start
tags — with fewer end tags it is still in the unknown state at the
remaining depth. -/
theorem c8_unknown_depth_skip (tr : Option String → String → String) (locale : String)
    (p : IsoCodesParser) (name : String) (attrs : List (String × String))
    (more : List (String × List (String × String))) (m : Nat)
    (hstate : p.state ≠ ISO_CODES_IN_UNKNOWN) (hdepth : p.unknown_depth = 0)
    (hname : iso_codes_unrecognized p.state name = true) (hm : m ≤ more.length + 1) :
    ((iso_codes_parser_run tr locale p
        (XmlEvent.startElement name attrs ::
          (more.map (fun e => XmlEvent.startElement e.1 e.2) ++
            List.replicate m (XmlEvent.endElement ("x"))))).state =
      (if m = more.length + 1 then p.state else ISO_CODES_IN_UNKNOWN)) ∧
    (iso_codes_parser_run tr locale p
        (XmlEvent.startElement name attrs ::
          (more.map (fun e => XmlEvent.startElement e.1 e.2) ++
            List.replicate m (XmlEvent.endElement ("x"))))).unknown_depth =
      more.length + 1 - m ∧
    (iso_codes_parser_run tr locale p
        (XmlEvent.startElement name attrs ::
          (more.map (fun e => XmlEvent.startElement e.1 e.2) ++
            List.replicate m (XmlEvent.endElement ("x"))))).last_known_state = p.state := by
  have h0 : iso_codes_parser_step tr locale p (XmlEvent.startElement name attrs) =
      { p with state := ISO_CODES_IN_UNKNOWN, last_known_state := p.state,
               unknown_depth := 1 } :=
    start_unknown_from_known tr locale p name attrs hstate hdepth hname
  have hcons : iso_codes_parser_run tr locale p
      (XmlEvent.startElement name attrs ::
        (more.map (fun e => XmlEvent.startElement e.1 e.2) ++
          List.replicate m (XmlEvent.endElement ("x")))) =
      iso_codes_parser_run tr locale
        (iso_codes_parser_step tr locale p (XmlEvent.startElement name attrs))
        (more.map (fun e => XmlEvent.startElement e.1 e.2) ++
          List.replicate m (XmlEvent.endElement ("x"))) := rfl
  have hq2 : iso_codes_parser_run tr locale
      ({ p with state := ISO_CODES_IN_UNKNOWN, last_known_state := p.state,
                unknown_depth := 1 })
      (more.map (fun e => XmlEvent.startElement e.1 e.2)) =
      { p with state := ISO_CODES_IN_UNKNOWN, last_known_state := p.state,
               unknown_depth := 1 + more.length } :=
    run_starts_in_unknown tr locale more _ rfl Nat.one_pos
  rw [hcons, h0, iso_run_append, hq2]
  have hrec := run_ends_in_unknown tr locale m
    { p with state := ISO_CODES_IN_UNKNOWN, last_known_state := p.state,
             unknown_depth := 1 + more.length }
    rfl (by show (0 : Nat) < 1 + more.length; omega)
    (by show m ≤ 1 + more.length; omega)
  obtain ⟨hst, hdep, hlast⟩ := hrec
  refine ⟨?_, ?_, ?_⟩
  · rw [hst]
    by_cases hfin : m = more.length + 1
    · rw [if_pos hfin,
          if_pos (by show m = 1 + more.length; omega :
            m = ({ p with state := ISO_CODES_IN_UNKNOWN, last_known_state := p.state,
                          unknown_depth := 1 + more.length } : IsoCodesParser).unknown_depth)]
    · rw [if_neg hfin,
          if_neg (by show ¬ m = 1 + more.length; omega :
            ¬ m = ({ p with state := ISO_CODES_IN_UNKNOWN, last_known_state := p.state,
                            unknown_depth := 1 + more.length } : IsoCodesParser).unknown_depth)]
  · rw [hdep]
    show 1 + more.length - m = more.length + 1 - m
    omega
  · rw [hlast]

/-- C8 witness: from the IN_ENTRY state, two nested unrecognized tags and
two end tags return the parser to IN_ENTRY with depth 0, having saved
IN_ENTRY as the last known state. -/
theorem c8_witness :
    c8_wit_machine.state ≠ ISO_CODES_IN_UNKNOWN ∧
    c8_wit_machine.unknown_depth = 0 ∧
    iso_codes_unrecognized c8_wit_machine.state ("foo") = true ∧
    (iso_codes_parser_run tr_id ("") c8_wit_machine
        (XmlEvent.startElement ("foo") [] ::
          ([(("bar" : String), ([] : List (String × String)))].map
              (fun e => XmlEvent.startElement e.1 e.2) ++
            List.replicate 2 (XmlEvent.endElement ("x"))))).state =
      (if 2 = [(("bar" : String), ([] : List (String × String)))].length + 1
       then c8_wit_machine.state else ISO_CODES_IN_UNKNOWN) :=
  ⟨by decide, by decide, by decide,
   (c8_unknown_depth_skip tr_id ("") c8_wit_machine ("foo") []
     [(("bar" : String), ([] : List (String × String)))] 2
     (by decide) (by decide) (by decide) (by decide)).1⟩

/- ------------------------------------------------------------------ -/
/- Parser invariant lemmas (C10)                                      -/
/- ------------------------------------------------------------------ -/

theorem iso_inv_start (tr : Option String → String → String) (locale : String)
    (p : IsoCodesParser) (d : Nat) (name : String) (attrs : List (String × String))
    (h : IsoInv p d) :
    IsoInv (iso_codes_parser_start_element tr locale p name attrs) (d + 1) := by
  obtain ⟨pst, plast, pd, padds, penv, pw, paf⟩ := p
  obtain ⟨hiff, hst, hen, hey, hun, hw, ha⟩ := h
  dsimp only at hiff hst hen hey hun hw ha
  cases pst with
  | ISO_CODES_START =>
    simp only [reduceCtorEq, false_iff, Nat.not_lt, Nat.le_zero] at hiff
    subst hiff
    have hdz : d = 0 := hst rfl
    subst hdz
    by_cases hn1 : name = "iso_639_entries"
    · simp [iso_codes_parser_start_element, hn1, IsoInv, hw, ha]
    · by_cases hn2 : name = "iso_639_entry"
      · simp [iso_codes_parser_start_element, hn1, hn2, IsoInv, hw, ha]
      · simp [iso_codes_parser_start_element, hn1, hn2,
              iso_codes_parser_start_unknown, IsoInv, hw, ha]
  | ISO_CODES_IN_ENTRIES =>
    simp only [reduceCtorEq, false_iff, Nat.not_lt, Nat.le_zero] at hiff
    subst hiff
    have hd1 : d ≤ 1 := hen rfl
    by_cases hn2 : name = "iso_639_entry"
    · simp [iso_codes_parser_start_element, hn2, IsoInv, hw, ha]
      omega
    · simp [iso_codes_parser_start_element, hn2,
            iso_codes_parser_start_unknown, IsoInv, hw, ha]
      omega
  | ISO_CODES_IN_ENTRY =>
    simp only [reduceCtorEq, false_iff, Nat.not_lt, Nat.le_zero] at hiff
    subst hiff
    have hd2 : 1 ≤ d ∧ d ≤ 2 := hey rfl
    simp [iso_codes_parser_start_element,
          iso_codes_parser_start_unknown, IsoInv, hw, ha]
    omega
  | ISO_CODES_IN_UNKNOWN =>
    have hpd : 0 < pd := hiff.mp rfl
    obtain ⟨hdle, hlne, hlst, hlen, hley⟩ := hun rfl
    have hpd0 : ¬ pd = 0 := by omega
    simp only [iso_codes_parser_start_element, iso_codes_parser_start_unknown,
               hpd0, if_false]
    refine ⟨by simp, by simp, by simp, by simp, ?_, hw, ha⟩
    intro _
    dsimp only
    refine ⟨by omega, hlne, ?_, ?_, ?_⟩
    · intro hp
      have := hlst hp
      omega
    · intro hp
      have := hlen hp
      omega
    · intro hp
      have := hley hp
      omega

theorem iso_inv_end (p : IsoCodesParser) (d : Nat) (h : IsoInv p (d + 1)) :
    IsoInv (iso_codes_parser_end_element p) d := by
  obtain ⟨pst, plast, pd, padds, penv, pw, paf⟩ := p
  obtain ⟨hiff, hst, hen, hey, hun, hw, ha⟩ := h
  dsimp only at hiff hst hen hey hun hw ha
  cases pst with
  | ISO_CODES_START =>
    exact absurd (hst rfl) (by omega)
  | ISO_CODES_IN_ENTRIES =>
    simp only [reduceCtorEq, false_iff, Nat.not_lt, Nat.le_zero] at hiff
    subst hiff
    have hd1 : d + 1 ≤ 1 := hen rfl
    simp [iso_codes_parser_end_element, IsoInv, hw, ha]
    omega
  | ISO_CODES_IN_ENTRY =>
    simp only [reduceCtorEq, false_iff, Nat.not_lt, Nat.le_zero] at hiff
    subst hiff
    have hd2 : 1 ≤ d + 1 ∧ d + 1 ≤ 2 := hey rfl
    simp [iso_codes_parser_end_element, IsoInv, hw, ha]
    omega
  | ISO_CODES_IN_UNKNOWN =>
    have hpd : 0 < pd := hiff.mp rfl
    obtain ⟨hdle, hlne, hlst, hlen, hley⟩ := hun rfl
    simp only [iso_codes_parser_end_element, iso_codes_parser_end_unknown]
    rw [if_pos (by constructor <;> simp [hpd])]
    by_cases hone : pd - 1 = 0
    · have hpd1 : pd = 1 := by omega
      rw [if_pos (by omega)]
      refine ⟨by simp [hlne], ?_, ?_, ?_, ?_, hw, ha⟩
      · intro hp
        have := hlst hp
        omega
      · intro hp
        have := hlen hp
        omega
      · intro hp
        have := hley hp
        omega
      · intro hp
        exact absurd hp hlne
    · rw [if_neg (by omega)]
      refine ⟨by simp; omega, by simp, by simp, by simp, ?_, hw, ha⟩
      intro _
      dsimp only
      refine ⟨by omega, hlne, ?_, ?_, ?_⟩
      · intro hp
        have := hlst hp
        omega
      · intro hp
        have := hlen hp
        omega
      · intro hp
        have := hley hp
        omega

theorem iso_inv_initial (env0 : Option String) : IsoInv (iso_codes_parser_initial env0) 0 := by
  simp [IsoInv, iso_codes_parser_initial]

theorem balancedFrom_append_left (suf : List XmlEvent) :
    ∀ (pre : List XmlEvent) (d : Nat), balancedFrom d (pre ++ suf) = true →
      balancedFrom d pre = true := by
  intro pre
  induction pre with
  | nil => intro d _; rfl
  | cons e rest ih =>
    intro d hb
    cases e with
    | startElement n a =>
      simp only [List.cons_append, balancedFrom] at hb ⊢
      exact ih (d + 1) hb
    | endElement n =>
      cases d with
      | zero => simp [balancedFrom] at hb
      | succ dd =>
        simp only [List.cons_append, balancedFrom] at hb ⊢
        exact ih dd hb

theorem iso_inv_run (tr : Option String → String → String) (locale : String) :
    ∀ (evs : List XmlEvent) (p : IsoCodesParser) (d : Nat), IsoInv p d →
      balancedFrom d evs = true →
      ∃ dd, IsoInv (iso_codes_parser_run tr locale p evs) dd := by
  intro evs
  induction evs with
  | nil => intro p d h _; exact ⟨d, h⟩
  | cons e rest ih =>
    intro p d h hb
    have hcons : iso_codes_parser_run tr locale p (e :: rest) =
        iso_codes_parser_run tr locale (iso_codes_parser_step tr locale p e) rest := rfl
    rw [hcons]
    cases e with
    | startElement n a =>
      simp only [balancedFrom] at hb
      exact ih _ (d + 1) (iso_inv_start tr locale p d n a h) hb
    | endElement n =>
      cases d with
      | zero => simp [balancedFrom] at hb
      | succ dd =>
        simp only [balancedFrom] at hb
        exact ih _ dd (iso_inv_end p dd h) hb

/-- C10: for every balanced event sequence delivered from the initial
parser state, the invariant (state is IN_UNKNOWN iff the unknown depth is
positive) holds after every prefix of events; consequently the `g_assert`
in `iso_codes_parser_end_unknown` never fails, and the "shouldn't get
here" warning branch of `iso_codes_parser_end_element` (an end-element in
the START state) is never reached. -/
theorem c10_unknown_invariant_and_asserts (tr : Option String → String → String)
    (locale : String) (env0 : Option String) (evs : List XmlEvent)
    (hbal : balancedFrom 0 evs = true) :
    (∀ pre suf, evs = pre ++ suf →
      ((iso_codes_parser_run tr locale (iso_codes_parser_initial env0) pre).state =
          ISO_CODES_IN_UNKNOWN ↔
        0 < (iso_codes_parser_run tr locale (iso_codes_parser_initial env0)
              pre).unknown_depth)) ∧
    (iso_codes_parser_run tr locale (iso_codes_parser_initial env0) evs).warnings = 0 ∧
    (iso_codes_parser_run tr locale (iso_codes_parser_initial env0) evs).assertFailed
      = false := by
  obtain ⟨df, hf⟩ :=
    iso_inv_run tr locale evs (iso_codes_parser_initial env0) 0 (iso_inv_initial env0) hbal
  refine ⟨?_, hf.2.2.2.2.2.1, hf.2.2.2.2.2.2⟩
  intro pre suf hsplit
  have hbp : balancedFrom 0 pre = true := by
    rw [hsplit] at hbal
    exact balancedFrom_append_left suf pre 0 hbal
  obtain ⟨dp, hp2⟩ :=
    iso_inv_run tr locale pre (iso_codes_parser_initial env0) 0 (iso_inv_initial env0) hbp
  exact hp2.1

/-- C10 witness: the doubly-nested unrecognized subtree is balanced and
triggers neither the warning branch nor the assertion. -/
theorem c10_witness :
    balancedFrom 0 c10_wit_events = true ∧
    (iso_codes_parser_run tr_id ("C") (iso_codes_parser_initial none)
        c10_wit_events).warnings = 0 ∧
    (iso_codes_parser_run tr_id ("C") (iso_codes_parser_initial none)
        c10_wit_events).assertFailed = false :=
  ⟨by decide,
   (c10_unknown_invariant_and_asserts tr_id ("C") none c10_wit_events (by decide)).2.1,
   (c10_unknown_invariant_and_asserts tr_id ("C") none c10_wit_events (by decide)).2.2⟩
